import Mathlib

/-!
Verification development for the ms-trace repository.

The repository answers "where is X used?" for a file / job / table query by
fanning the query out to a remote code-search backend (Sourcegraph) and a
shared filesystem (AFS), then optionally summarizing the merged references.

Strings are modelled as `List Char` (Python `str` restricted to the
characters that actually occur; `str.lower` is modelled by the ASCII
`Char.toLower`, which agrees with Python on ASCII input).  Each definition
below is a direct translation of the Python function named in its doc
comment.
-/

namespace MsTrace

/-- Python `s.startswith(p)`: `startsWithL p s` is true when `p` is an
initial segment of `s`. -/
def startsWithL : List Char → List Char → Bool
  | [], _ => true
  | _ :: _, [] => false
  | p :: ps, c :: cs => p == c && startsWithL ps cs

/-- Python `needle in hay` on strings: substring containment.  Note that the
empty needle is contained in every string, exactly as in Python. -/
def containsSub : List Char → List Char → Bool
  | hay, needle =>
    match hay with
    | [] => needle.isEmpty
    | _ :: t => startsWithL needle hay || containsSub t needle

/-- Python `s.endswith(p)` (used to model the default extension regexes). -/
def endsWithL (s suf : List Char) : Bool :=
  startsWithL suf.reverse s.reverse

/-- Python `s.lower()` restricted to ASCII. -/
def lowerL (s : List Char) : List Char :=
  s.map Char.toLower

/-- Python `s.split(".")`: always returns a non-empty list of segments. -/
def splitOnDot : List Char → List (List Char)
  | [] => [[]]
  | c :: cs =>
    if c = '.' then [] :: splitOnDot cs
    else
      match splitOnDot cs with
      | [] => [[c]]
      | seg :: rest => (c :: seg) :: rest

/-- The literal prefix `"job:"` tested by both implementations. -/
def jobPrefixD : List Char := ['j', 'o', 'b', ':']

/-- The literal prefix `"table:"` tested by both implementations. -/
def tablePrefixD : List Char := ['t', 'a', 'b', 'l', 'e', ':']

/-- `src/trace/search_afs.py`, `AFSSearcher._extract_base_name`:
`job:` strips the 4-character prefix; `table:` strips the 6-character prefix
and takes `remainder.split(".")[-1]`; any other query is returned
unchanged. -/
def extract_base_name (query : List Char) : List Char :=
  if startsWithL jobPrefixD query then query.drop 4
  else if startsWithL tablePrefixD query then
    (splitOnDot (query.drop 6)).getLastD []
  else query

/-- `src/traceit/src/traceit/search_afs.py`,
`AFSSearcher._extract_base_name` (the second implementation; its body is
line-for-line the same as the `trace` one). -/
def traceit_extract_base_name (query : List Char) : List Char :=
  if startsWithL jobPrefixD query then query.drop 4
  else if startsWithL tablePrefixD query then
    (splitOnDot (query.drop 6)).getLastD []
  else query

/-- The closed query-kind variant of the spec's `CanonicalQuery`. -/
inductive QueryKind where
  | FileName
  | Job
  | Table
  deriving DecidableEq

/-- The branch selector shared by `_extract_base_name` (both copies) and
`SourcegraphSearcher._build_search_query`: the `job:` test runs first, then
the `table:` test, otherwise the file-name branch. -/
def normalizeKind (query : List Char) : QueryKind :=
  if startsWithL jobPrefixD query then .Job
  else if startsWithL tablePrefixD query then .Table
  else .FileName

/-- `src/trace/search_sourcegraph.py`,
`SourcegraphSearcher._build_search_query`: formats the Sourcegraph query
string from the raw query.  Note that the `table:` branch interpolates the
whole remainder `query[6:]`, schema included. -/
def sourcegraph_build_search_query (query : List Char) : List Char :=
  if startsWithL jobPrefixD query then
    "type:file \"".data ++ query.drop 4 ++
      "\" (lang:python OR lang:yaml OR lang:json)".data
  else if startsWithL tablePrefixD query then
    "type:file \"".data ++ query.drop 6 ++ "\" (lang:sql OR lang:python)".data
  else
    "type:file \"".data ++ query ++ "\"".data

/-- The spec's description of the `table:` rule: the substring after the
last `.` (the whole remainder when it has no dot).  Stated recursively:
while a dot still lies ahead, everything up to and including it is
discarded.  Used to relate the code's `split(".")[-1]` to the spec's
wording. -/
def afterLastDot : List Char → List Char
  | [] => []
  | c :: cs =>
    if ('.' : Char) ∈ cs then afterLastDot cs
    else if c = '.' then cs
    else c :: afterLastDot cs

/-! ## Filesystem model and the AFS traversal

A directory tree under the AFS root is a list of entries, each a file or a
subdirectory.  `os.walk` visits directories in listing order; results are
identified by their path below the root (directory names followed by the
file name).  The compiled regex patterns of `AFSSearcher` are opaque
callables in the source, so they are modelled as `List Char → Bool`
predicates applied to the file name, exactly where the source calls
`pattern.search(file)`. -/

inductive FSTree where
  | file (name : List Char)
  | dir (name : List Char) (children : List FSTree)

/-- Python `d.startswith(".")` on a directory name. -/
def isHidden : List Char → Bool
  | [] => false
  | c :: _ => c == '.'

/-- The per-file match test of `_find_matching_files` (both copies), as the
two nested `if`s of the source: `base_name.lower() in file.lower()` and
`any(pattern.search(file) for pattern in self.compiled_patterns)`. -/
def fileMatchHits (bn : List Char) (pats : List (List Char → Bool))
    (name : List Char) : Bool :=
  containsSub (lowerL name) (lowerL bn) && pats.any (fun p => p name)

mutual

/-- `src/traceit/src/traceit/search_afs.py`,
`AFSSearcher._find_matching_files`, restricted to one entry of the
directory containing it: a file at depth `d` is collected when the match
test passes; a subdirectory is descended into only when the containing
directory's depth `d` satisfies `d < max_depth` (the source clears `dirs`
when `current_depth >= max_depth`) and the name is not hidden. -/
def findTree (bn : List Char) (pats : List (List Char → Bool))
    (maxd : Nat) (d : Nat) : FSTree → List (List (List Char))
  | .file n => if fileMatchHits bn pats n then [[n]] else []
  | .dir n ch =>
    if d < maxd && !(isHidden n) then
      (findList bn pats maxd (d + 1) ch).map (fun p => n :: p)
    else []

/-- The same traversal over all entries of one directory, in listing
order. -/
def findList (bn : List Char) (pats : List (List Char → Bool))
    (maxd : Nat) (d : Nat) : List FSTree → List (List (List Char))
  | [] => []
  | e :: es => findTree bn pats maxd d e ++ findList bn pats maxd d es

end

mutual

/-- `src/trace/search_afs.py`, `AFSSearcher._find_matching_files` (the
first implementation): identical match test and hidden-directory pruning,
but no depth limit — `os.walk` descends into every non-hidden
subdirectory. -/
def traceFindTree (bn : List Char) (pats : List (List Char → Bool)) :
    FSTree → List (List (List Char))
  | .file n => if fileMatchHits bn pats n then [[n]] else []
  | .dir n ch =>
    if !(isHidden n) then
      (traceFindList bn pats ch).map (fun p => n :: p)
    else []

/-- The `trace` traversal over all entries of one directory. -/
def traceFindList (bn : List Char) (pats : List (List Char → Bool)) :
    List FSTree → List (List (List Char))
  | [] => []
  | e :: es => traceFindTree bn pats e ++ traceFindList bn pats es

end

mutual

/-- The files the depth-limited traversal encounters (same walk as
`findTree`, with the match test dropped): used to state that a visited
file is reported iff the match test passes. -/
def visitTree (maxd : Nat) (d : Nat) : FSTree → List (List (List Char))
  | .file n => [[n]]
  | .dir n ch =>
    if d < maxd && !(isHidden n) then
      (visitList maxd (d + 1) ch).map (fun p => n :: p)
    else []

/-- The visited files of all entries of one directory. -/
def visitList (maxd : Nat) (d : Nat) : List FSTree → List (List (List Char))
  | [] => []
  | e :: es => visitTree maxd d e ++ visitList maxd d es

end

/-- Semantics of the default compiled pattern `".*\\.py$"` under
`re.search` on newline-free file names: the name ends with `".py"`. -/
def pyPattern : List Char → Bool :=
  fun n => endsWithL n ['.', 'p', 'y']

/-! ## The remote client's request loop

`SourcegraphSearcher._make_request` runs `requests.post` +
`raise_for_status()` + `response.json()` once per attempt.  One attempt can
end three ways, mirroring the `requests` exception hierarchy the `except`
clause tests against: a parsed value; a `requests.RequestException`
(`Timeout`, `ConnectionError`, or the `HTTPError` that `raise_for_status`
raises for every 4xx/5xx status — all subclasses of `RequestException`);
or an exception outside that hierarchy, which the `except` clause does not
catch and which therefore propagates at once. -/

inductive ReqError where
  | timeout
  | connError
  | httpError (status : Nat)
  deriving DecidableEq

/-- Outcome of one attempt of the transport. -/
inductive AttemptOutcome (α : Type) where
  | ok (v : α)
  | reqExc (e : ReqError)
  | otherExc
  deriving DecidableEq

/-- Result of `_make_request`: a parsed response, a `RequestException`
re-raised after the last attempt, an uncaught exception, or the `return {}`
fall-through (reachable only when `max_retries = 0`). -/
inductive RequestResult (α : Type) where
  | success (v : α)
  | failure (e : ReqError)
  | raisedOther
  | emptyDict
  deriving DecidableEq

/-- The body of `_make_request`'s `for attempt in range(max_retries)` loop,
with `remaining = max_retries - attempt` as structural fuel.  On a
`RequestException` at `attempt < max_retries - 1` it sleeps
`2 ** attempt` (recorded in the returned list) and continues; on the last
attempt it re-raises. -/
def makeRequestAux {α : Type} (transport : Nat → AttemptOutcome α)
    (max_retries : Nat) :
    Nat → Nat → List Nat → RequestResult α × List Nat
  | 0, _, sleeps => (.emptyDict, sleeps)
  | remaining + 1, attempt, sleeps =>
    match transport attempt with
    | .ok v => (.success v, sleeps)
    | .otherExc => (.raisedOther, sleeps)
    | .reqExc e =>
      if attempt < max_retries - 1 then
        makeRequestAux transport max_retries remaining (attempt + 1)
          (sleeps ++ [2 ^ attempt])
      else (.failure e, sleeps)

/-- `src/trace/search_sourcegraph.py`, `SourcegraphSearcher._make_request`:
the whole retry loop, returning the result together with the list of
backoff sleeps it performed (in seconds). -/
def makeRequest {α : Type} (transport : Nat → AttemptOutcome α)
    (max_retries : Nat) : RequestResult α × List Nat :=
  makeRequestAux transport max_retries max_retries 0 []

/-! ## JSON values and the response parser

`_parse_search_results` receives whatever `response.json()` produced.  The
JSON subset that can occur there is modelled by `JVal`; Python `dict.get`
on a non-dict raises `AttributeError`, which the `try` around the whole
parse loop catches, returning the references accumulated so far. -/

inductive JVal where
  | null
  | str (s : List Char)
  | bool (b : Bool)
  | num (n : Nat)
  | obj (fields : List (List Char × JVal))
  | arr (elems : List JVal)

/-- First-occurrence association-list lookup (Python dict keys are unique,
so this is dict lookup). -/
def alookup {β : Type} : List (List Char × β) → List Char → Option β
  | [], _ => none
  | (k, v) :: rest, key => if k = key then some v else alookup rest key

/-- Python `v.get(k, dflt)`: defined on dicts, an `AttributeError`
(modelled as `Except.error`) on anything else. -/
def dictGetD (v : JVal) (k : List Char) (dflt : JVal) : Except Unit JVal :=
  match v with
  | .obj fields => .ok ((alookup fields k).getD dflt)
  | _ => .error ()

/-- Python `for x in v`: lists yield elements, strings yield one-character
strings, dicts yield their keys, anything else raises `TypeError`. -/
def iterElems : JVal → Except Unit (List JVal)
  | .arr l => .ok l
  | .str s => .ok (s.map (fun c => .str [c]))
  | .obj fields => .ok (fields.map (fun p => .str p.1))
  | _ => .error ()

/-- The spec's `Reference` as produced by the remote client: `path`,
`repo`, `url` hold whatever JSON value the response carried (the source
stores them untouched), `last_modified` and `author` are set to `None`
literally. -/
structure Reference where
  path : JVal
  repo : JVal
  url : JVal
  last_modified : Option JVal
  author : Option JVal

/-- The test `result.get("__typename") == "FileMatch"` (Python `==` with
`None` or a non-string on the left is `False`). -/
def isFileMatchItem (fields : List (List Char × JVal)) : Bool :=
  match alookup fields "__typename".data with
  | some (.str s) => s == "FileMatch".data
  | _ => false

/-- One iteration of the parse loop's body for an item already known to be
a dict tagged `FileMatch`: `file`/`repository` default to `{}` when the
keys are absent, their `path`/`name`/`url` sub-keys default to `""`. -/
def parseFileMatch (fields : List (List Char × JVal)) :
    Except Unit Reference := do
  let fi ← dictGetD (.obj fields) "file".data (.obj [])
  let ri ← dictGetD (.obj fields) "repository".data (.obj [])
  let p ← dictGetD fi "path".data (.str [])
  let r ← dictGetD ri "name".data (.str [])
  let u ← dictGetD fi "url".data (.str [])
  pure { path := p, repo := r, url := u, last_modified := none,
         author := none }

/-- The `for result in search_results` loop of `_parse_search_results`.
An exception inside the body is caught by the function-level `try`, which
returns the references accumulated so far. -/
def parseItems : List Reference → List JVal → List Reference
  | acc, [] => acc
  | acc, item :: rest =>
    match item with
    | .obj fields =>
      if isFileMatchItem fields then
        match parseFileMatch fields with
        | .error _ => acc
        | .ok r => parseItems (acc ++ [r]) rest
      else parseItems acc rest
    | _ => acc

/-- `src/trace/search_sourcegraph.py`,
`SourcegraphSearcher._parse_search_results`: the chained
`response.get("data", {}).get("search", {}).get("results", {})
.get("results", [])` followed by the item loop; any exception yields the
references accumulated at that point (none, for the chain itself). -/
def parseSearchResults (resp : JVal) : List Reference :=
  match dictGetD resp "data".data (.obj []) with
  | .error _ => []
  | .ok d =>
    match dictGetD d "search".data (.obj []) with
    | .error _ => []
    | .ok s =>
      match dictGetD s "results".data (.obj []) with
      | .error _ => []
      | .ok r1 =>
        match dictGetD r1 "results".data (.arr []) with
        | .error _ => []
        | .ok r2 =>
          match iterElems r2 with
          | .error _ => []
          | .ok items => parseItems [] items

/-! ## Summaries: the CLI fallback and the summarizer's no-client path -/

/-- The spec's `Summary` record. -/
structure Summary where
  risk_level : List Char
  impact_summary : List Char
  suggested_next_steps : List (List Char)
  deriving DecidableEq

/-- `src/traceit/src/traceit/cli.py`, `main`: the summary dict built when
`llm.enabled` is false. -/
def cliFallbackSummary (ncode nafs : Nat) : Summary :=
  { risk_level := "UNKNOWN".data
    impact_summary :=
      "Found ".data ++ (Nat.repr ncode).data ++
        " code references and ".data ++ (Nat.repr nafs).data ++
        " AFS references".data
    suggested_next_steps := [] }

/-- `src/traceit/src/traceit/summarize_impact.py`,
`ImpactSummarizer.summarize`, the `if not self.client` branch: returned
before any request is issued. -/
def summarizeUnavailable : Summary :=
  { risk_level := "UNKNOWN".data
    impact_summary := "LLM summarization not available".data
    suggested_next_steps := [] }

/-- The summary produced for one query when summarization is requested:
the branch structure of `cli.main` (LLM enabled?) composed with
`ImpactSummarizer.summarize` (client constructible?).  `llmSummary`
abstracts the network path, which is reached only when both flags hold. -/
def producedSummary (llm_enabled client_available : Bool)
    (llmSummary : Summary) (ncode nafs : Nat) : Summary :=
  if llm_enabled then
    if client_available then llmSummary else summarizeUnavailable
  else cliFallbackSummary ncode nafs

/-! ## Configuration defaults and the per-key merge

`Config._set_defaults` iterates the `defaults` dict; a top-level key
missing from the user config is inserted whole, and for a present key the
default section's sub-keys that the user section lacks are filled in one by
one.  A configuration is an association list of sections, each an
association list of values; Python would raise a `TypeError` on a user
section that is not a mapping, so sections are typed as mappings here. -/

/-- One configuration section. -/
abbrev Sect : Type := List (List Char × JVal)

/-- Replace the value at the first occurrence of a key
(Python `config[key] = value` on a present key). -/
def aupdate {β : Type} : List (List Char × β) → List Char → β →
    List (List Char × β)
  | [], _, _ => []
  | (k, v) :: rest, key, nv =>
    if k = key then (k, nv) :: rest else (k, v) :: aupdate rest key nv

/-- The inner sub-key loop of `_set_defaults`: for each default sub-key
missing from the user section, append it (Python dicts append new keys at
the end). -/
def mergeSect (usec : Sect) (dsec : Sect) : Sect :=
  dsec.foldl
    (fun u p => if (alookup u p.1).isNone then u ++ [p] else u) usec

/-- The outer loop of `_set_defaults` over the defaults dict. -/
def setDefaults : List (List Char × Sect) → List (List Char × Sect) →
    List (List Char × Sect)
  | [], cfg => cfg
  | (k, dsec) :: ds, cfg =>
    match alookup cfg k with
    | none => setDefaults ds (cfg ++ [(k, dsec)])
    | some usec => setDefaults ds (aupdate cfg k (mergeSect usec dsec))

/-- `src/trace/config.py`, the `defaults` dict of `Config._set_defaults`;
`env_api_key` stands for `os.getenv("LLM_API_KEY", "")`. -/
def trace_defaults (env_api_key : List Char) : List (List Char × Sect) :=
  [ ("sourcegraph".data,
      [ ("endpoint".data,
          .str "https://sourcegraph.example.com/.api/graphql".data),
        ("token".data, .str []) ]),
    ("afs".data,
      [ ("root_path".data, .str "/afs/project".data),
        ("search_patterns".data,
          .arr [.str ".*\\.py$".data, .str ".*\\.sql$".data,
                .str ".*\\.ipynb$".data]) ]),
    ("llm".data,
      [ ("enabled".data, .bool false),
        ("provider".data, .str "openai".data),
        ("model".data, .str "gpt-4".data),
        ("api_key".data, .str env_api_key),
        ("base_url".data, .str []) ]),
    ("logging".data,
      [ ("level".data, .str "INFO".data),
        ("format".data,
          .str "%(asctime)s - %(name)s - %(levelname)s - %(message)s".data) ]),
    ("performance".data,
      [ ("max_workers".data, .num 4),
        ("request_timeout".data, .num 30),
        ("max_retries".data, .num 3) ]) ]

/-- `Config.get` on a two-component dotted key `"sec.sub"`: walk the
section, then the sub-key, `none` when either is absent. -/
def cfgGet (cfg : List (List Char × Sect)) (sec sub : List Char) :
    Option JVal :=
  (alookup cfg sec).bind (fun s => alookup s sub)

/-! ## Helper lemmas -/

theorem splitOnDot_ne_nil (s : List Char) : splitOnDot s ≠ [] := by
  cases s with
  | nil => simp [splitOnDot]
  | cons c cs =>
    simp only [splitOnDot]
    split
    · simp
    · cases h : splitOnDot cs <;> simp

theorem getLastD_irrel {α : Type} (l : List α) (h : l ≠ []) (d₁ d₂ : α) :
    l.getLastD d₁ = l.getLastD d₂ := by
  cases l with
  | nil => exact absurd rfl h
  | cons a t => rw [List.getLastD_cons, List.getLastD_cons]

theorem splitOnDot_noDot (s : List Char) (h : ('.' : Char) ∉ s) :
    splitOnDot s = [s] := by
  induction s with
  | nil => rfl
  | cons c cs ih =>
    simp only [List.mem_cons, not_or] at h
    simp only [splitOnDot, if_neg (Ne.symm h.1), ih h.2]

theorem afterLastDot_noDot (s : List Char) (h : ('.' : Char) ∉ s) :
    afterLastDot s = s := by
  induction s with
  | nil => rfl
  | cons c cs ih =>
    simp only [List.mem_cons, not_or] at h
    simp only [afterLastDot, if_neg h.2, if_neg (Ne.symm h.1), ih h.2]

theorem splitOnDot_len_two_of_mem (s : List Char)
    (h : ('.' : Char) ∈ s) : 2 ≤ (splitOnDot s).length := by
  induction s with
  | nil => cases h
  | cons c cs ih =>
    simp only [splitOnDot]
    by_cases hc : c = '.'
    · rw [if_pos hc]
      cases hh : splitOnDot cs with
      | nil => exact absurd hh (splitOnDot_ne_nil cs)
      | cons a t => simp [List.length]
    · rw [if_neg hc]
      have hm : ('.' : Char) ∈ cs := by
        rcases List.mem_cons.mp h with h1 | h2
        · exact absurd h1.symm hc
        · exact h2
      have h2 := ih hm
      cases hh : splitOnDot cs with
      | nil => exact absurd hh (splitOnDot_ne_nil cs)
      | cons a t =>
        rw [hh] at h2
        simpa [List.length] using h2

theorem getLastD_splitOnDot (s : List Char) :
    (splitOnDot s).getLastD [] = afterLastDot s := by
  induction s with
  | nil => rfl
  | cons c cs ih =>
    have hrhs : afterLastDot (c :: cs)
        = if ('.' : Char) ∈ cs then afterLastDot cs
          else if c = '.' then cs else c :: afterLastDot cs := rfl
    by_cases hc : c = '.'
    · subst hc
      have hlhs : splitOnDot ('.' :: cs) = [] :: splitOnDot cs := by
        simp [splitOnDot]
      rw [hlhs, List.getLastD_cons,
        getLastD_irrel _ (splitOnDot_ne_nil cs) [] [], ih, hrhs]
      by_cases hm : ('.' : Char) ∈ cs
      · rw [if_pos hm]
      · rw [if_neg hm, if_pos rfl, afterLastDot_noDot cs hm]
    · rcases h : splitOnDot cs with _ | ⟨seg, rest⟩
      · exact absurd h (splitOnDot_ne_nil cs)
      · have hlhs : splitOnDot (c :: cs) = (c :: seg) :: rest := by
          simp only [splitOnDot, if_neg hc, h]
        rcases rest with _ | ⟨r0, rs⟩
        · -- a single segment: `cs` holds no dot and the segment is `cs`
          have hm : ('.' : Char) ∉ cs := by
            intro hmem
            have := splitOnDot_len_two_of_mem cs hmem
            rw [h] at this
            simp at this
          have hseg : seg = cs := by
            have h2 := splitOnDot_noDot cs hm
            rw [h] at h2
            exact (List.cons_eq_cons.mp h2).1
          rw [hlhs, hseg, hrhs, if_neg hm, if_neg hc,
            afterLastDot_noDot cs hm]
          rfl
        · -- two or more segments: `cs` holds a dot
          have hm : ('.' : Char) ∈ cs := by
            by_contra hmem
            rw [splitOnDot_noDot cs hmem] at h
            simp at h
          have e1 : ((c :: seg) :: r0 :: rs).getLastD []
              = (r0 :: rs).getLastD (c :: seg) :=
            List.getLastD_cons _ _ _
          have e2 : (seg :: r0 :: rs).getLastD []
              = (r0 :: rs).getLastD seg :=
            List.getLastD_cons _ _ _
          have e3 : (r0 :: rs).getLastD (c :: seg)
              = (r0 :: rs).getLastD seg :=
            getLastD_irrel _ (List.cons_ne_nil r0 rs) _ _
          rw [hlhs, e1, e3, ← e2, ← h, ih, hrhs, if_pos hm]

/-! ## Claim theorems -/

/-- C10: the two `_extract_base_name` implementations (`src/trace` and
`src/traceit`) compute the same base name for every query string. -/
theorem extract_base_name_implementations_agree :
    ∀ q : List Char, extract_base_name q = traceit_extract_base_name q :=
  fun _ => rfl

/-- C2 counterexample: for the query `"table:analytics.pnl"` the remote
client's built search query quotes the full remainder
`"analytics.pnl"`, not the last segment `"pnl"` that the claim asserts it
constrains matching to. -/
theorem sourcegraph_table_query_keeps_schema_cex :
    sourcegraph_build_search_query "table:analytics.pnl".data
        = "type:file \"analytics.pnl\" (lang:sql OR lang:python)".data ∧
    sourcegraph_build_search_query "table:analytics.pnl".data
        ≠ "type:file \"pnl\" (lang:sql OR lang:python)".data := by
  exact ⟨rfl, by decide⟩

/-- C2 amended: for every `table:` query, the filesystem client matches
against the last dot-separated segment of the remainder, but the remote
client's built search query constrains matching to the full
`<schema>.<name>` remainder. -/
theorem sourcegraph_table_query_amended :
    ∀ rest : List Char,
      sourcegraph_build_search_query (tablePrefixD ++ rest)
          = "type:file \"".data ++ rest ++
              "\" (lang:sql OR lang:python)".data ∧
      extract_base_name (tablePrefixD ++ rest) = afterLastDot rest := by
  intro rest
  constructor
  · rfl
  · have h : extract_base_name (tablePrefixD ++ rest)
        = (splitOnDot rest).getLastD [] := rfl
    rw [h, getLastD_splitOnDot]

/-- C4: query normalization is total and applies the prefix rules in
order — `job:` queries map to the remainder with kind `Job`; `table:`
queries map to the substring after the last `.` of the remainder (the
whole remainder when it has no dot) with kind `Table`; all other queries
are unchanged with kind `FileName`. -/
theorem normalize_query_rules :
    (∀ r : List Char,
        extract_base_name (jobPrefixD ++ r) = r ∧
        normalizeKind (jobPrefixD ++ r) = QueryKind.Job) ∧
    (∀ r : List Char,
        extract_base_name (tablePrefixD ++ r) = afterLastDot r ∧
        normalizeKind (tablePrefixD ++ r) = QueryKind.Table) ∧
    (∀ r : List Char, ('.' : Char) ∉ r →
        extract_base_name (tablePrefixD ++ r) = r) ∧
    (∀ q : List Char,
        startsWithL jobPrefixD q = false →
        startsWithL tablePrefixD q = false →
        extract_base_name q = q ∧ normalizeKind q = QueryKind.FileName) := by
  refine ⟨fun r => ⟨rfl, rfl⟩, fun r => ⟨?_, rfl⟩, fun r hr => ?_,
    fun q h1 h2 => ⟨?_, ?_⟩⟩
  · have h : extract_base_name (tablePrefixD ++ r)
        = (splitOnDot r).getLastD [] := rfl
    rw [h, getLastD_splitOnDot]
  · have h : extract_base_name (tablePrefixD ++ r)
        = (splitOnDot r).getLastD [] := rfl
    rw [h, splitOnDot_noDot r hr]
    rfl
  · simp [extract_base_name, h1, h2]
  · simp [normalizeKind, h1, h2]

/-- C4 witness: the theorem applied at the spec's own examples, with the
no-dot and no-prefix hypotheses discharged on concrete queries. -/
theorem normalize_query_rules_witness :
    (('.' : Char) ∉ "pnl".data) ∧
    extract_base_name (tablePrefixD ++ "pnl".data) = "pnl".data ∧
    startsWithL jobPrefixD "file.py".data = false ∧
    startsWithL tablePrefixD "file.py".data = false ∧
    extract_base_name "file.py".data = "file.py".data :=
  ⟨by decide,
   normalize_query_rules.2.2.1 "pnl".data (by decide),
   by decide, by decide,
   (normalize_query_rules.2.2.2 "file.py".data (by decide) (by decide)).1⟩

/-- C1 (evaluation at the failing input): the query `"job:"` normalizes to
the empty base name, yet both `_find_matching_files` implementations,
given a root that contains `a.py`, return that file — Python's
`"" in file.lower()` is true for every file, so an empty base name matches
everything that passes the extension patterns, where the spec demands it
match nothing. -/
theorem afs_empty_base_name_matches_files :
    extract_base_name "job:".data = [] ∧
    findList [] [pyPattern] 1 0 [FSTree.file "a.py".data]
        = [["a.py".data]] ∧
    traceFindList [] [pyPattern] [FSTree.file "a.py".data]
        = [["a.py".data]] :=
  ⟨rfl, rfl, rfl⟩

/-- C8 counterexample: when the LLM is enabled but no client could be
constructed, the produced summary's impact text is the fixed
"LLM summarization not available" message, not the reference-count
template the claim asserts for every no-backend case. -/
theorem summary_fallback_no_counts_cex :
    (producedSummary true false ⟨[], [], []⟩ 0 0).impact_summary
        = "LLM summarization not available".data ∧
    (producedSummary true false ⟨[], [], []⟩ 0 0).impact_summary
        ≠ (cliFallbackSummary 0 0).impact_summary := by
  exact ⟨rfl, by decide⟩

/-- C8 amended: with the LLM disabled the CLI synthesizes the templated
count summary; with the LLM enabled but no constructible client the
summarizer returns the fixed "not available" summary before any request;
both have risk level `UNKNOWN` and no suggested next steps, and neither
depends on the LLM response. -/
theorem summary_fallback_amended :
    ∀ (s : Summary) (b : Bool) (n m : Nat),
      producedSummary false b s n m = cliFallbackSummary n m ∧
      producedSummary true false s n m = summarizeUnavailable ∧
      (cliFallbackSummary n m).risk_level = "UNKNOWN".data ∧
      (cliFallbackSummary n m).suggested_next_steps = [] ∧
      (cliFallbackSummary n m).impact_summary
          = "Found ".data ++ (Nat.repr n).data ++
              " code references and ".data ++ (Nat.repr m).data ++
              " AFS references".data ∧
      summarizeUnavailable.risk_level = "UNKNOWN".data ∧
      summarizeUnavailable.suggested_next_steps = [] :=
  fun _ _ _ _ => ⟨rfl, rfl, rfl, rfl, rfl, rfl, rfl⟩

/-! ## Retry-loop lemmas -/

theorem makeRequestAux_ok {α : Type} (t : Nat → AttemptOutcome α)
    (maxr attempt : Nat) (sleeps : List Nat) (v : α)
    (hlt : attempt < maxr) (hok : t attempt = .ok v) :
    makeRequestAux t maxr (maxr - attempt) attempt sleeps
      = (.success v, sleeps) := by
  have hfuel : maxr - attempt = (maxr - (attempt + 1)) + 1 := by omega
  rw [hfuel]
  simp only [makeRequestAux]
  rw [hok]

theorem makeRequestAux_other {α : Type} (t : Nat → AttemptOutcome α)
    (maxr attempt : Nat) (sleeps : List Nat)
    (hlt : attempt < maxr) (hother : t attempt = .otherExc) :
    makeRequestAux t maxr (maxr - attempt) attempt sleeps
      = (.raisedOther, sleeps) := by
  have hfuel : maxr - attempt = (maxr - (attempt + 1)) + 1 := by omega
  rw [hfuel]
  simp only [makeRequestAux]
  rw [hother]

theorem makeRequestAux_skip {α : Type} (t : Nat → AttemptOutcome α)
    (maxr : Nat) :
    ∀ (k attempt : Nat) (sleeps : List Nat),
      attempt + k < maxr →
      (∀ i, i < k → ∃ e, t (attempt + i) = .reqExc e) →
      makeRequestAux t maxr (maxr - attempt) attempt sleeps
        = makeRequestAux t maxr (maxr - (attempt + k)) (attempt + k)
            (sleeps ++ (List.range k).map (fun i => 2 ^ (attempt + i))) := by
  intro k
  induction k with
  | zero => intro attempt sleeps _ _; simp
  | succ k ih =>
    intro attempt sleeps hlt herr
    obtain ⟨e, he⟩ := herr 0 (Nat.succ_pos k)
    rw [Nat.add_zero] at he
    have hfuel : maxr - attempt = (maxr - (attempt + 1)) + 1 := by omega
    rw [hfuel]
    simp only [makeRequestAux]
    rw [he]
    simp only [if_pos (show attempt < maxr - 1 by omega)]
    have hstep := ih (attempt + 1) (sleeps ++ [2 ^ attempt]) (by omega)
      (fun i hi => by
        have := herr (i + 1) (Nat.succ_lt_succ hi)
        rwa [show attempt + (i + 1) = attempt + 1 + i by omega] at this)
    rw [hstep]
    have harg : attempt + 1 + k = attempt + (k + 1) := by omega
    have hsleeps :
        (sleeps ++ [2 ^ attempt]) ++
            (List.range k).map (fun i => 2 ^ (attempt + 1 + i))
          = sleeps ++ (List.range (k + 1)).map (fun i => 2 ^ (attempt + i)) := by
      rw [List.range_succ_eq_map, List.append_assoc]
      simp only [List.map_cons, List.map_map, List.singleton_append,
        Nat.add_zero]
      have hfun : ((fun i => 2 ^ (attempt + i)) ∘ Nat.succ)
          = (fun i => 2 ^ (attempt + 1 + i)) := by
        funext i
        simp only [Function.comp]
        congr 1
        omega
      rw [hfun]
    rw [harg, hsleeps]

theorem makeRequest_ok_after {α : Type} (t : Nat → AttemptOutcome α)
    (maxr k : Nat) (v : α) (hk : k < maxr)
    (herr : ∀ i, i < k → ∃ e, t i = .reqExc e) (hok : t k = .ok v) :
    makeRequest t maxr = (.success v, (List.range k).map (fun i => 2 ^ i)) := by
  have h0 : makeRequest t maxr = makeRequestAux t maxr (maxr - 0) 0 [] := by
    simp [makeRequest]
  rw [h0, makeRequestAux_skip t maxr k 0 [] (by omega)
    (fun i hi => by simpa using herr i hi)]
  simp only [List.nil_append, Nat.zero_add]
  exact makeRequestAux_ok t maxr k _ v hk hok

theorem makeRequest_other_after {α : Type} (t : Nat → AttemptOutcome α)
    (maxr k : Nat) (hk : k < maxr)
    (herr : ∀ i, i < k → ∃ e, t i = .reqExc e) (hother : t k = .otherExc) :
    makeRequest t maxr
      = (.raisedOther, (List.range k).map (fun i => 2 ^ i)) := by
  have h0 : makeRequest t maxr = makeRequestAux t maxr (maxr - 0) 0 [] := by
    simp [makeRequest]
  rw [h0, makeRequestAux_skip t maxr k 0 [] (by omega)
    (fun i hi => by simpa using herr i hi)]
  simp only [List.nil_append, Nat.zero_add]
  exact makeRequestAux_other t maxr k _ hk hother

/-- C3 counterexample: an HTTP 404 response raises `HTTPError`, a
`requests.RequestException`, so the loop retries after it instead of
stopping — here the first attempt 404s, the second succeeds, and one
backoff sleep (1s) was performed, where the claim says a 4xx stops
retrying immediately. -/
theorem make_request_retries_on_4xx_cex :
    makeRequest
        (fun i => if i = 0 then AttemptOutcome.reqExc (ReqError.httpError 404)
                  else .ok (42 : Nat)) 3
      = (.success 42, [1]) ∧
    (makeRequest
        (fun i => if i = 0 then AttemptOutcome.reqExc (ReqError.httpError 404)
                  else .ok (42 : Nat)) 3).2
      ≠ [] := by
  exact ⟨by decide, by decide⟩

/-- C3 amended: the loop retries after every `requests.RequestException`
(timeout, connection error, and the `HTTPError` raised for any 4xx or 5xx
status alike) with exponential backoff 1s, 2s, 4s, ...; a success stops
it immediately, as does any exception outside the `RequestException`
hierarchy; with `max_retries = 3`, a transport failing twice and then
succeeding yields the success value after exactly the two delays 1s and
2s. -/
theorem make_request_retry_behavior :
    (∀ (α : Type) (t : Nat → AttemptOutcome α) (maxr k : Nat) (v : α),
        k < maxr →
        (∀ i, i < k → ∃ e, t i = .reqExc e) →
        t k = .ok v →
        makeRequest t maxr
          = (.success v, (List.range k).map (fun i => 2 ^ i))) ∧
    (∀ (α : Type) (t : Nat → AttemptOutcome α) (maxr k : Nat),
        k < maxr →
        (∀ i, i < k → ∃ e, t i = .reqExc e) →
        t k = .otherExc →
        makeRequest t maxr
          = (.raisedOther, (List.range k).map (fun i => 2 ^ i))) ∧
    (∀ (v : Nat) (e1 e2 : ReqError),
        makeRequest
            (fun i => if i = 0 then .reqExc e1
                      else if i = 1 then .reqExc e2 else .ok v) 3
          = (.success v, [1, 2])) := by
  refine ⟨fun α t maxr k v hk herr hok =>
      makeRequest_ok_after t maxr k v hk herr hok,
    fun α t maxr k hk herr hother =>
      makeRequest_other_after t maxr k hk herr hother,
    fun v e1 e2 => ?_⟩
  have h := makeRequest_ok_after
    (fun i => if i = 0 then .reqExc e1
              else if i = 1 then .reqExc e2 else .ok v) 3 2 v
    (by omega)
    (fun i hi => by
      interval_cases i
      · exact ⟨e1, rfl⟩
      · exact ⟨e2, rfl⟩)
    rfl
  simpa using h

/-- C3 witness: the amended theorem applied to a transport that times out
once and then succeeds, with `max_retries = 3`. -/
theorem make_request_retry_behavior_witness :
    (1 : Nat) < 3 ∧
    makeRequest
        (fun i => if i = 0 then AttemptOutcome.reqExc ReqError.timeout
                  else .ok (7 : Nat)) 3
      = (.success 7, [1]) :=
  ⟨by decide, by
    have h := make_request_retry_behavior.1 Nat
      (fun i => if i = 0 then .reqExc .timeout else .ok 7) 3 1 7
      (by decide)
      (fun i hi => by interval_cases i; exact ⟨.timeout, rfl⟩)
      rfl
    simpa using h⟩

/-! ## Traversal lemmas -/

theorem mem_visitList_ne_nil (maxd d : Nat) (es : List FSTree) :
    ∀ p ∈ visitList maxd d es, p ≠ [] := by
  induction es with
  | nil => simp [visitList]
  | cons e es ih =>
    intro p hp
    simp only [visitList, List.mem_append] at hp
    rcases hp with hp | hp
    · cases e with
      | file n =>
        simp only [visitTree, List.mem_singleton] at hp
        subst hp
        simp
      | dir n ch =>
        simp only [visitTree] at hp
        split at hp
        · obtain ⟨q, _, rfl⟩ := List.mem_map.mp hp
          simp
        · simp at hp
    · exact ih p hp

mutual

theorem findTree_eq_filter (bn : List Char) (pats : List (List Char → Bool))
    (maxd d : Nat) (t : FSTree) :
    findTree bn pats maxd d t
      = (visitTree maxd d t).filter
          (fun p => fileMatchHits bn pats (p.getLastD [])) := by
  cases t with
  | file n =>
    cases h : fileMatchHits bn pats n <;>
      simp [findTree, visitTree, List.filter, h, List.getLastD_cons,
        List.getLastD_nil]
  | dir n ch =>
    by_cases hc : (decide (d < maxd) && !(isHidden n)) = true
    · have hrec := findList_eq_filter bn pats maxd (d + 1) ch
      simp only [findTree, visitTree, hc, if_true, hrec]
      rw [List.filter_map]
      have hcongr :
          (visitList maxd (d + 1) ch).filter
              ((fun p => fileMatchHits bn pats (p.getLastD []))
                ∘ (fun p => n :: p))
            = (visitList maxd (d + 1) ch).filter
              (fun p => fileMatchHits bn pats (p.getLastD [])) := by
        apply List.filter_congr
        intro q hq
        have hne : q ≠ [] := mem_visitList_ne_nil maxd (d + 1) ch q hq
        simp only [Function.comp]
        rw [List.getLastD_cons, getLastD_irrel q hne n []]
      rw [hcongr]
    · simp only [findTree, visitTree, hc, if_false]
      rfl

theorem findList_eq_filter (bn : List Char) (pats : List (List Char → Bool))
    (maxd d : Nat) (es : List FSTree) :
    findList bn pats maxd d es
      = (visitList maxd d es).filter
          (fun p => fileMatchHits bn pats (p.getLastD [])) := by
  cases es with
  | nil => rfl
  | cons e es =>
    simp only [findList, visitList, List.filter_append,
      findTree_eq_filter bn pats maxd d e,
      findList_eq_filter bn pats maxd d es]

end

mutual

theorem findTree_depth_le (bn : List Char) (pats : List (List Char → Bool))
    (maxd d : Nat) (t : FSTree) (hd : d ≤ maxd) :
    ∀ p ∈ findTree bn pats maxd d t, p.length + d ≤ maxd + 1 := by
  cases t with
  | file n =>
    intro p hp
    simp only [findTree] at hp
    split at hp
    · simp only [List.mem_singleton] at hp
      subst hp
      simp only [List.length_singleton]
      omega
    · simp at hp
  | dir n ch =>
    intro p hp
    simp only [findTree] at hp
    split at hp
    · rename_i hc
      have hlt : d < maxd := by
        have := hc
        simp only [Bool.and_eq_true, decide_eq_true_eq] at this
        exact this.1
      obtain ⟨q, hq, rfl⟩ := List.mem_map.mp hp
      have := findList_depth_le bn pats maxd (d + 1) ch hlt q hq
      simpa [List.length_cons] using by omega
    · simp at hp

theorem findList_depth_le (bn : List Char) (pats : List (List Char → Bool))
    (maxd d : Nat) (es : List FSTree) (hd : d ≤ maxd) :
    ∀ p ∈ findList bn pats maxd d es, p.length + d ≤ maxd + 1 := by
  cases es with
  | nil => simp [findList]
  | cons e es =>
    intro p hp
    simp only [findList, List.mem_append] at hp
    rcases hp with hp | hp
    · exact findTree_depth_le bn pats maxd d e hd p hp
    · exact findList_depth_le bn pats maxd d es hd p hp

end

/-- C5: the depth-limited traversal prunes descent — every reported path
at `max_depth = m` lies at most `m` directory levels below the root, at
`max_depth = 0` the result is exactly the matching files of the root
listing itself (nothing from any subdirectory), and at the default
`max_depth = 1` every reported path stays within the root's immediate
contents (at most one directory component). -/
theorem afs_depth_pruning :
    (∀ (bn : List Char) (pats : List (List Char → Bool)) (maxd : Nat)
        (es : List FSTree) (p : List (List Char)),
        p ∈ findList bn pats maxd 0 es → p.length ≤ maxd + 1) ∧
    (∀ (bn : List Char) (pats : List (List Char → Bool))
        (es : List FSTree),
        findList bn pats 0 0 es
          = es.filterMap (fun e =>
              match e with
              | FSTree.file n =>
                if fileMatchHits bn pats n then some [n] else none
              | FSTree.dir _ _ => none)) ∧
    (∀ (bn : List Char) (pats : List (List Char → Bool))
        (es : List FSTree) (p : List (List Char)),
        p ∈ findList bn pats 1 0 es → p.length ≤ 2) := by
  refine ⟨fun bn pats maxd es p hp => ?_, fun bn pats es => ?_,
    fun bn pats es p hp => ?_⟩
  · have := findList_depth_le bn pats maxd 0 es (Nat.zero_le maxd) p hp
    omega
  · induction es with
    | nil => rfl
    | cons e es ih =>
      cases e with
      | file n =>
        cases h : fileMatchHits bn pats n <;>
          simp [findList, findTree, List.filterMap_cons, h, ih]
      | dir n ch =>
        simp [findList, findTree, List.filterMap_cons, ih]
  · have := findList_depth_le bn pats 1 0 es (Nat.zero_le 1) p hp
    omega

/-- C5 witness: the depth bound applied to a concrete one-file root at the
default depth. -/
theorem afs_depth_pruning_witness :
    ["a.py".data] ∈ findList "a".data [pyPattern] 1 0
        [FSTree.file "a.py".data] ∧
    (["a.py".data] : List (List Char)).length ≤ 1 + 1 :=
  ⟨by decide,
   afs_depth_pruning.1 "a".data [pyPattern] 1 [FSTree.file "a.py".data]
     ["a.py".data] (by decide)⟩

/-- C6: a file encountered by the traversal is reported exactly when the
base name is, case-insensitively, a substring of its name AND its name
matches at least one configured pattern — the reported list is the
visited list filtered by the conjunction of the two conditions, so a file
satisfying only one of them is never returned. -/
theorem afs_match_iff_both_conditions :
    ∀ (bn : List Char) (pats : List (List Char → Bool)) (maxd d : Nat)
      (es : List FSTree),
      findList bn pats maxd d es
        = (visitList maxd d es).filter
            (fun p => containsSub (lowerL (p.getLastD [])) (lowerL bn)
                && pats.any (fun pat => pat (p.getLastD []))) :=
  fun bn pats maxd d es => findList_eq_filter bn pats maxd d es

/-- A well-formed response carrying exactly one `FileMatch` result (the
shape exercised by `src/tests/test_sourcegraph.py`). -/
def sampleFileMatchResponse : JVal :=
  .obj [("data".data, .obj [("search".data, .obj [("results".data,
    .obj [("results".data, .arr [
      .obj [("__typename".data, .str "FileMatch".data),
            ("file".data,
              .obj [("path".data, .str "test/file.py".data),
                    ("url".data,
                      .str "https://sourcegraph.com/test/file.py".data)]),
            ("repository".data,
              .obj [("name".data, .str "test-repo".data)])]])])])])]

/-- C7: the response parser extracts only `FileMatch`-typed results; an
entirely absent `data`/`search`/`results` substructure yields the empty
list without raising; missing nested fields are replaced by the empty
string; and a well-formed `FileMatch` entry yields one reference with
`path` and `repo` populated and `last_modified`/`author` explicitly
absent. -/
theorem parse_search_results_behavior :
    (∀ fields : List (List Char × JVal),
        alookup fields "data".data = none →
        parseSearchResults (.obj fields) = []) ∧
    (parseSearchResults sampleFileMatchResponse
        = [{ path := .str "test/file.py".data,
             repo := .str "test-repo".data,
             url := .str "https://sourcegraph.com/test/file.py".data,
             last_modified := none, author := none }]) ∧
    (parseItems [] [.obj [("__typename".data, JVal.str "FileMatch".data)]]
        = [{ path := .str [], repo := .str [], url := .str [],
             last_modified := none, author := none }]) ∧
    (∀ (acc : List Reference) (rest : List JVal)
        (fields : List (List Char × JVal)),
        isFileMatchItem fields = false →
        parseItems acc (.obj fields :: rest) = parseItems acc rest) := by
  refine ⟨fun fields h => ?_, rfl, rfl, fun acc rest fields h => ?_⟩
  · have hd : dictGetD (.obj fields) "data".data (.obj [])
        = .ok (.obj []) := by
      simp [dictGetD, h]
    simp only [parseSearchResults, hd]
    rfl
  · simp [parseItems, h]

/-- C7 witness: the theorem applied to the empty response object (missing
the `data` key) and to a non-`FileMatch` item. -/
theorem parse_search_results_behavior_witness :
    alookup ([] : List (List Char × JVal)) "data".data = none ∧
    parseSearchResults (.obj []) = [] ∧
    isFileMatchItem [("__typename".data, JVal.str "Repository".data)]
        = false ∧
    parseItems [] [.obj [("__typename".data, JVal.str "Repository".data)]]
        = parseItems [] [] :=
  ⟨rfl,
   parse_search_results_behavior.1 [] rfl,
   rfl,
   parse_search_results_behavior.2.2.2 [] []
     [("__typename".data, JVal.str "Repository".data)] rfl⟩

/-! ## Association-list lemmas for the configuration merge -/

theorem alookup_append {β : Type} (l1 l2 : List (List Char × β))
    (k : List Char) :
    alookup (l1 ++ l2) k
      = match alookup l1 k with
        | some v => some v
        | none => alookup l2 k := by
  induction l1 with
  | nil => rfl
  | cons p rest ih =>
    obtain ⟨k0, v0⟩ := p
    by_cases h : k0 = k
    · simp [alookup, h]
    · simp [alookup, h, ih]

theorem alookup_aupdate_self {β : Type} (l : List (List Char × β))
    (k : List Char) (v nv : β) (h : alookup l k = some v) :
    alookup (aupdate l k nv) k = some nv := by
  induction l with
  | nil => simp [alookup] at h
  | cons p rest ih =>
    obtain ⟨k0, v0⟩ := p
    by_cases hk : k0 = k
    · simp [alookup, aupdate, hk]
    · simp only [alookup, aupdate, if_neg hk] at h ⊢
      exact ih h

theorem alookup_aupdate_ne {β : Type} (l : List (List Char × β))
    (k k' : List Char) (nv : β) (h : k ≠ k') :
    alookup (aupdate l k nv) k' = alookup l k' := by
  induction l with
  | nil => rfl
  | cons p rest ih =>
    obtain ⟨k0, v0⟩ := p
    by_cases hk : k0 = k
    · subst hk
      simp [alookup, aupdate, h]
    · simp only [aupdate, if_neg hk, alookup]
      by_cases hk' : k0 = k'
      · simp [hk']
      · simp [hk', ih]

theorem alookup_none_of_not_mem {β : Type} (l : List (List Char × β))
    (k : List Char) (h : k ∉ l.map Prod.fst) : alookup l k = none := by
  induction l with
  | nil => rfl
  | cons p rest ih =>
    obtain ⟨k0, v0⟩ := p
    simp only [List.map_cons, List.mem_cons, not_or] at h
    simp only [alookup, if_neg (Ne.symm h.1)]
    exact ih h.2

theorem mergeSect_alookup (dsec : Sect) :
    ∀ (usec : Sect) (sk : List Char),
      alookup (mergeSect usec dsec) sk
        = match alookup usec sk with
          | some v => some v
          | none => alookup dsec sk := by
  induction dsec with
  | nil =>
    intro usec sk
    cases h : alookup usec sk <;> simp [mergeSect, List.foldl, h, alookup]
  | cons p rest ih =>
    intro usec sk
    obtain ⟨k0, v0⟩ := p
    have hstep : mergeSect usec ((k0, v0) :: rest)
        = mergeSect
            (if (alookup usec k0).isNone then usec ++ [(k0, v0)] else usec)
            rest := by
      simp [mergeSect, List.foldl]
    rw [hstep]
    by_cases hu : (alookup usec k0).isNone
    · rw [if_pos hu, ih]
      have happ := alookup_append usec [(k0, v0)] sk
      by_cases hk : k0 = sk
      · subst hk
        have hnone : alookup usec k0 = none := by
          cases h : alookup usec k0
          · rfl
          · rw [h] at hu; simp at hu
        rw [happ, hnone]
        simp [alookup, hnone]
      · rw [happ]
        cases h : alookup usec sk
        · simp [alookup, hk, h]
        · simp [alookup, hk, h]
    · rw [if_neg hu, ih]
      obtain ⟨w, hw⟩ : ∃ w, alookup usec k0 = some w := by
        cases h : alookup usec k0
        · rw [h] at hu; simp at hu
        · exact ⟨_, rfl⟩
      by_cases hk : k0 = sk
      · subst hk
        rw [hw]
      · cases h : alookup usec sk <;> simp [alookup, hk, h]

theorem setDefaults_alookup :
    ∀ (ds cfg : List (List Char × Sect)) (k : List Char),
      (ds.map Prod.fst).Nodup →
      alookup (setDefaults ds cfg) k
        = match alookup cfg k, alookup ds k with
          | some usec, some dsec => some (mergeSect usec dsec)
          | some usec, none => some usec
          | none, some dsec => some dsec
          | none, none => none := by
  intro ds
  induction ds with
  | nil =>
    intro cfg k _
    cases h : alookup cfg k <;> simp [setDefaults, alookup, h]
  | cons p ds ih =>
    intro cfg k hnd
    obtain ⟨k0, d0⟩ := p
    simp only [List.map_cons, List.nodup_cons] at hnd
    obtain ⟨hk0, hnd'⟩ := hnd
    by_cases hk : k0 = k
    · subst hk
      have hds : alookup ds k0 = alookup ds k0 := rfl
      have hnone : alookup ds k0 = none :=
        alookup_none_of_not_mem ds k0 hk0
      cases hcfg : alookup cfg k0 with
      | none =>
        simp only [setDefaults, hcfg]
        rw [ih (cfg ++ [(k0, d0)]) k0 hnd']
        have := alookup_append cfg [(k0, d0)] k0
        rw [this, hcfg]
        simp [alookup, hnone]
      | some usec =>
        simp only [setDefaults, hcfg]
        rw [ih (aupdate cfg k0 (mergeSect usec d0)) k0 hnd']
        rw [alookup_aupdate_self cfg k0 usec (mergeSect usec d0) hcfg]
        simp [alookup, hnone]
    · cases hcfg : alookup cfg k0 with
      | none =>
        simp only [setDefaults, hcfg]
        rw [ih (cfg ++ [(k0, d0)]) k hnd']
        have := alookup_append cfg [(k0, d0)] k
        rw [this]
        cases h : alookup cfg k
        · simp [alookup, hk, h]
        · simp [alookup, hk, h]
      | some usec =>
        simp only [setDefaults, hcfg]
        rw [ih (aupdate cfg k0 (mergeSect usec d0)) k hnd']
        rw [alookup_aupdate_ne cfg k0 k (mergeSect usec d0) hk]
        simp [alookup, hk]

/-- C9: configuration keys missing from the user file take the documented
defaults, and overriding is per-key — for every user configuration and
every `section.subkey`, the merged value is the user's when the user
supplies it and the default otherwise, so a partial user section merges
with the remaining default sub-keys while its own values are kept. -/
theorem config_merge_per_key :
    ∀ (env_api_key : List Char) (user : List (List Char × Sect))
      (sec sub : List Char),
      cfgGet (setDefaults (trace_defaults env_api_key) user) sec sub
        = match cfgGet user sec sub with
          | some v => some v
          | none => cfgGet (trace_defaults env_api_key) sec sub := by
  intro env user sec sub
  have hkeys : (trace_defaults env).map Prod.fst
      = ["sourcegraph".data, "afs".data, "llm".data, "logging".data,
         "performance".data] := rfl
  have hnd : ((trace_defaults env).map Prod.fst).Nodup := by
    rw [hkeys]
    decide
  simp only [cfgGet]
  rw [setDefaults_alookup (trace_defaults env) user sec hnd]
  cases hu : alookup user sec with
  | none =>
    cases hd : alookup (trace_defaults env) sec with
    | none => rfl
    | some dsec => rfl
  | some usec =>
    cases hd : alookup (trace_defaults env) sec with
    | none =>
      show alookup usec sub
          = match alookup usec sub with
            | some v => some v
            | none => none
      cases h : alookup usec sub <;> simp [h]
    | some dsec =>
      show alookup (mergeSect usec dsec) sub
          = match alookup usec sub with
            | some v => some v
            | none => alookup dsec sub
      exact mergeSect_alookup dsec usec sub

end MsTrace
